import Mathlib

/-!
Verification of the W-state synthesizer (w_state_synth_pass.py).

The circuit builders are embedded as functions producing lists of gates; a
rotation gate stores the rational argument p of its angle, the angle itself
being 2 * arcsin (sqrt p), which is exactly the form of every rotation angle
computed in the source (theta = 2 * asin (sqrt (1 / r))).  The state-vector
semantics uses exact real arithmetic in place of the source's floating point;
qubit k corresponds to bit k of the basis-state index (little-endian, the
convention of the host library).  Entry points that raise ValueError for a
qubit count below one are embedded as Except-valued functions over ℤ.
-/

namespace WSynth

/-- Gate vocabulary of the synthesizer's circuit builders.  The `ry` gate
stores the rational p with actual rotation angle 2 * arcsin (sqrt p). -/
inductive Gate where
  | x (q : ℕ)
  | had (q : ℕ)
  | ry (p : ℚ) (t : ℕ)
  | cx (c t : ℕ)
  | barrier
deriving DecidableEq

/-- Qubit indices an operation acts on. -/
def Gate.qubits : Gate → List ℕ
  | .x q => [q]
  | .had q => [q]
  | .ry _ t => [t]
  | .cx c t => [c, t]
  | .barrier => []

/-- The rotation angle encoded by the rational parameter of an `ry` gate:
theta = 2 * asin (sqrt p), as computed throughout the source. -/
noncomputable def ryAngle (p : ℚ) : ℝ := 2 * Real.arcsin (Real.sqrt (p : ℝ))

/-- Flip bit k of a basis-state index. -/
def flipB (k i : ℕ) : ℕ := if i.testBit k then i - 2 ^ k else i + 2 ^ k

/-- Action of one gate on a real state vector (amplitudes indexed by basis
state; all gates of the source have real matrices). -/
noncomputable def applyGate (g : Gate) (v : ℕ → ℝ) : ℕ → ℝ :=
  match g with
  | .x k => fun i => v (flipB k i)
  | .had k => fun i =>
      if i.testBit k then (v (i - 2 ^ k) - v i) / Real.sqrt 2
      else (v i + v (i + 2 ^ k)) / Real.sqrt 2
  | .ry p k => fun i =>
      if i.testBit k then
        Real.sin (ryAngle p / 2) * v (i - 2 ^ k) + Real.cos (ryAngle p / 2) * v i
      else
        Real.cos (ryAngle p / 2) * v i - Real.sin (ryAngle p / 2) * v (i + 2 ^ k)
  | .cx c t => fun i => if i.testBit c then v (flipB t i) else v i
  | .barrier => v

/-- The all-zero computational basis state. -/
noncomputable def e0 : ℕ → ℝ := fun i => if i = 0 then 1 else 0

/-- State prepared by a gate list from the all-zero state
(Statevector.from_instruction). -/
noncomputable def stateOf (gs : List Gate) : ℕ → ℝ :=
  gs.foldl (fun v g => applyGate g v) e0

/-- create_ideal_w_state: amplitude 1 / sqrt n on every index 2 ^ k (k < n),
0 elsewhere. -/
noncomputable def idealW (n : ℕ) : ℕ → ℝ := fun i =>
  if ∃ k ∈ Finset.range n, i = 2 ^ k then 1 / Real.sqrt (n : ℝ) else 0

/-- state_fidelity for real state vectors over n qubits: the squared inner
product. -/
noncomputable def fid (n : ℕ) (v w : ℕ → ℝ) : ℝ :=
  (∑ i ∈ Finset.range (2 ^ n), v i * w i) ^ 2

/-- create_linear_w_state, body (the n < 1 guard lives in `linE`):
x on qubit 0, then for k = 0 .. n-2 an ry with p = 1 / (n - k) on qubit k
followed by cx from k to k+1. -/
def linGates (n : ℕ) : List Gate :=
  if n = 1 then [Gate.x 0]
  else
    Gate.x 0 :: (List.range (n - 1)).flatMap fun k =>
      [Gate.ry (1 / ((n - k : ℕ) : ℚ)) k, Gate.cx k (k + 1)]

/-- The rotation-plus-entangle pair emitted for one (source, target) transfer
inside create_improved_balanced_w_state: p = 1 / (remaining_targets + 1)
with remaining_targets = n - target. -/
def pairGates (n : ℕ) (st : ℕ × ℕ) : List Gate :=
  [Gate.ry (1 / ((n - st.2 + 1 : ℕ) : ℚ)) st.1, Gate.cx st.1 st.2]

/-- Inner for-loop of create_improved_balanced_w_state: iterate over the
active qubits (sources); target = len(active) + len(next_active); emit a
rotation+entangle pair and record the target whenever target < n. -/
def inner (n activeLen : ℕ) : List ℕ → List ℕ → List Gate × List ℕ
  | [], acc => ([], acc)
  | s :: rest, acc =>
    let target := activeLen + acc.length
    if target < n then
      if 0 < n - target then
        let p := inner n activeLen rest (acc ++ [target])
        (pairGates n (s, target) ++ p.1, p.2)
      else inner n activeLen rest acc
    else inner n activeLen rest acc

/-- Outer while-loop of create_improved_balanced_w_state, with explicit fuel
(the function itself calls it with fuel n, which suffices; see
c10_loop_terminates).  Returns the emitted gates, the final active list, and
the number of loop iterations executed. -/
def outerF (n : ℕ) : ℕ → List ℕ → List Gate × List ℕ × ℕ
  | 0, active => ([], active, 0)
  | f + 1, active =>
    if active.length < n then
      let p := inner n active.length active []
      if p.2.isEmpty then (p.1, active ++ p.2, 1)
      else
        let r := outerF n f (active ++ p.2)
        (p.1 ++ r.1, r.2.1, r.2.2 + 1)
    else ([], active, 0)

/-- Gates one iteration of the while-loop emits when the active set is
0 .. m-1: one rotation+entangle pair for each new target m + i with
i < min m (n - m). -/
def roundGates (n m : ℕ) : List Gate :=
  (List.range (min m (n - m))).flatMap fun i => pairGates n (i, m + i)

/-- create_improved_balanced_w_state, body: linear for n ≤ 4, otherwise x on
qubit 0 followed by the grouped while-loop. -/
def improvedGates (n : ℕ) : List Gate :=
  if n ≤ 4 then linGates n
  else Gate.x 0 :: (outerF n n [0]).1

/-- Number of iterations (parallel transfer layers) the grouped while-loop of
create_improved_balanced_w_state executes. -/
def emittedLayers (n : ℕ) : ℕ := (outerF n n [0]).2.2

/-- _build_balanced_w_split.  The source recurses on the left half and
distributes amplitude to the right half inline.  The tests
0 < sin_half_theta and sin_half_theta ≤ 1 on sqrt q are rendered as the
equivalent rational tests 0 < q and q ≤ 1.  (On an empty qubit list the
source would recurse forever; that case is unreachable from the entry point
and is rendered as the empty gate list.) -/
def splitW (qs : List ℕ) : List Gate :=
  if qs.length = 1 then [Gate.x (qs.getD 0 0)]
  else if qs.length = 2 then
    [Gate.x (qs.getD 0 0), Gate.had (qs.getD 0 0), Gate.cx (qs.getD 0 0) (qs.getD 1 0)]
  else if qs.length < 3 then []
  else
    splitW (qs.take (qs.length / 2)) ++
    (let k := (qs.take (qs.length / 2)).length
     let m := (qs.drop (qs.length / 2)).length
     let right := qs.drop (qs.length / 2)
     if 0 < k ∧ 0 < m then
       let ctrl := qs.getD 0 0
       let pr : ℚ := (m : ℚ) / (qs.length : ℚ)
       let pl : ℚ := (k : ℚ) / (qs.length : ℚ)
       if 0 < pl + pr then
         let q : ℚ := pr / (pl + pr)
         if 0 < q ∧ q ≤ 1 then
           Gate.ry q ctrl ::
           (List.range m).flatMap fun i =>
             if i = 0 then [Gate.cx ctrl (right.getD 0 0)]
             else if 1 < m - i then
               [Gate.ry (1 / ((m - i : ℕ) : ℚ)) (right.getD (i - 1) 0),
                Gate.cx (right.getD (i - 1) 0) (right.getD i 0)]
             else []
         else []
       else []
     else [])
termination_by qs.length
decreasing_by
  simp [List.length_take]
  omega

/-- create_balanced_w_state, body: linear for n ≤ 3, otherwise the recursive
split over qubits 0 .. n-1. -/
def balGates (n : ℕ) : List Gate :=
  if n ≤ 3 then linGates n else splitW (List.range n)

/-- Whether an Except value is an error (a raised ValueError). -/
def isErr {ε α : Type} : Except ε α → Bool
  | Except.error _ => true
  | Except.ok _ => false

/-- create_linear_w_state entry point with its n < 1 precondition check. -/
def linE (n : ℤ) : Except String (List Gate) :=
  if n < 1 then Except.error ("W-state requires at least 1 qubit")
  else Except.ok (linGates n.toNat)

/-- create_balanced_w_state entry point. -/
def balE (n : ℤ) : Except String (List Gate) :=
  if n < 1 then Except.error ("W-state requires at least 1 qubit")
  else Except.ok (balGates n.toNat)

/-- create_improved_balanced_w_state entry point. -/
def improvedE (n : ℤ) : Except String (List Gate) :=
  if n < 1 then Except.error ("W-state requires at least 1 qubit")
  else Except.ok (improvedGates n.toNat)

/-- WState gate: its constructor raises for n < 1 and its _define installs
the linear construction. -/
def wStateE (n : ℤ) : Except String (List Gate) :=
  if n < 1 then Except.error ("W-state requires at least 1 qubit")
  else Except.ok (linGates n.toNat)

/-- create_ideal_w_state entry point. -/
noncomputable def idealWE (n : ℤ) : Except String (ℕ → ℝ) :=
  if n < 1 then Except.error ("W-state requires at least 1 qubit")
  else Except.ok (idealW n.toNat)

/-- Operation node of the circuit graph: operation name, the physical qubit
slots it acts on, and an optional rotation parameter. -/
structure Node where
  name : String
  qargs : List ℕ
  param : Option ℚ
deriving DecidableEq

/-- substitute_node_with_dag wire mapping: internal qubit index i of the
replacement is bound to the marker node's i-th qubit slot. -/
def toNode (qargs : List ℕ) : Gate → Node
  | .x q => ⟨"x", [qargs.getD q 0], none⟩
  | .had q => ⟨"h", [qargs.getD q 0], none⟩
  | .ry p t => ⟨"ry", [qargs.getD t 0], some p⟩
  | .cx c t => ⟨"cx", [qargs.getD c 0, qargs.getD t 0], none⟩
  | .barrier => ⟨"barrier", qargs, none⟩

/-- WStateSynthesizer._MIN_SIZE. -/
def minSize : ℕ := 4

/-- Fidelity the pass computes in _verify_w_state for the balanced candidate
on n qubits. -/
noncomputable def fidelityOf (n : ℕ) : ℝ := fid n (idealW n) (stateOf (improvedGates n))

/-- Per-node body of WStateSynthesizer.run.  The stored coupling map (built in
__init__ from the optional target) is threaded through but — exactly as in the
source — never consulted.  Skips non-marker nodes, nodes below _MIN_SIZE,
planning failures, and (when verification is on) candidates with fidelity
below 0.99; otherwise splices in the balanced replacement. -/
noncomputable def processNode (cmap : Option (List (ℕ × ℕ))) (verify : Bool)
    (nd : Node) : List Node :=
  if nd.name = "w_state" then
    if nd.qargs.length < minSize then [nd]
    else
      match improvedE (nd.qargs.length : ℤ) with
      | Except.error _ => [nd]
      | Except.ok gs =>
        if verify then
          if fidelityOf nd.qargs.length < 99 / 100 then [nd]
          else gs.map (toNode nd.qargs)
        else gs.map (toNode nd.qargs)
  else [nd]

/-- WStateSynthesizer.run: process every node of the circuit graph in order,
splicing replacements in place. -/
noncomputable def runPass (cmap : Option (List (ℕ × ℕ))) (verify : Bool)
    (dag : List Node) : List Node :=
  dag.flatMap (processNode cmap verify)

/-- Qubit slots touched by a list of nodes. -/
def touchedList (nds : List Node) : List ℕ := nds.flatMap Node.qargs

/-- The (control, target) pairs of the entangling gates of a circuit, in
emission order. -/
def cxList (gs : List Gate) : List (ℕ × ℕ) :=
  gs.filterMap fun g =>
    match g with
    | .cx c t => some (c, t)
    | _ => none

/-- Undirected adjacency in a coupling-map edge list. -/
def adjacent (edges : List (ℕ × ℕ)) (a b : ℕ) : Bool :=
  edges.contains (a, b) || edges.contains (b, a)

/-- Modelled from the spec: the connectivity-aware variant's breadth-first
spanning search from the first requested physical qubit, restricted to the
requested subset, succeeding when it reaches all requested qubits.  No such
search exists in the source (WStateSynthesizer only stores the coupling map);
this definition serves solely to state claim C6's hypothesis. -/
def reachAll (edges : List (ℕ × ℕ)) (qs : List ℕ) : Bool :=
  match qs with
  | [] => true
  | q0 :: _ =>
    let grow := fun (vis : List ℕ) =>
      vis ++ qs.filter (fun q => !vis.contains q && vis.any (fun v => adjacent edges v q))
    let final := (List.range qs.length).foldl (fun vis _ => grow vis) [q0]
    qs.all (fun q => final.contains q)

/-! ## Claim C2: shape of the linear construction -/

/-- C2: for every n ≥ 1 the linear builder emits exactly one x on qubit 0
followed, for k = 0 .. n-2, by an ry on qubit k whose angle parameter is
1 / (n - k) (i.e. angle 2 * arcsin (sqrt (1 / (n - k)))) and a cx from qubit
k to qubit k + 1 — n - 1 rotation+entangle pairs in strict sequence and
nothing else. -/
theorem c2_linear_shape (n : ℕ) (hn : 1 ≤ n) :
    linGates n =
      Gate.x 0 :: (List.range (n - 1)).flatMap fun k =>
        [Gate.ry (1 / ((n - k : ℕ) : ℚ)) k, Gate.cx k (k + 1)] := by
  unfold linGates
  by_cases h : n = 1
  · subst h
    simp
  · rw [if_neg h]

/-- Witness for c2_linear_shape at n = 4. -/
theorem c2_linear_shape_witness :
    linGates 4 =
      Gate.x 0 :: (List.range (4 - 1)).flatMap fun k =>
        [Gate.ry (1 / ((4 - k : ℕ) : ℚ)) k, Gate.cx k (k + 1)] :=
  c2_linear_shape 4 (by norm_num)

/-! ## Claim C1: the linear construction does not prepare a W-state -/

/-- C1 (code bug evidence): at n = 2 the state prepared by
create_linear_w_state has fidelity exactly 0 against the ideal W-state —
far below the claimed 0.999.  The circuit x(0); ry(pi/2, 0); cx(0, 1)
produces (-|00> + |11>)/sqrt 2, which is orthogonal to (|01> + |10>)/sqrt 2. -/
theorem c1_linear_fidelity_zero :
    fid 2 (idealW 2) (stateOf (linGates 2)) = 0 ∧ (0 : ℝ) < 999 / 1000 := by
  refine ⟨?_, by norm_num⟩
  have hl : linGates 2 = [Gate.x 0, Gate.ry (1 / 2) 0, Gate.cx 0 1] := by
    norm_num [linGates, List.range_succ, List.range_zero, List.flatMap_cons, List.flatMap_nil]
  rw [hl]
  have hs : stateOf [Gate.x 0, Gate.ry (1 / 2) 0, Gate.cx 0 1] =
      applyGate (Gate.cx 0 1) (applyGate (Gate.ry (1 / 2) 0) (applyGate (Gate.x 0) e0)) := rfl
  have t1 : Nat.testBit 1 0 = true := by decide
  have t2 : Nat.testBit 2 0 = false := by decide
  have t3 : Nat.testBit 3 0 = true := by decide
  have f11 : flipB 1 1 = 3 := by decide
  have f02 : flipB 0 2 = 3 := by decide
  have f03 : flipB 0 3 = 2 := by decide
  have key1 : applyGate (Gate.cx 0 1)
      (applyGate (Gate.ry (1 / 2) 0) (applyGate (Gate.x 0) e0)) 1 = 0 := by
    simp [applyGate, t1, t2, t3, f11, f02, f03, e0]
  have key2 : applyGate (Gate.cx 0 1)
      (applyGate (Gate.ry (1 / 2) 0) (applyGate (Gate.x 0) e0)) 2 = 0 := by
    simp [applyGate, t1, t2, t3, f11, f02, f03, e0]
  have i0 : idealW 2 0 = 0 := by
    simp only [idealW]
    rw [if_neg (by decide)]
  have i3 : idealW 2 3 = 0 := by
    simp only [idealW]
    rw [if_neg (by decide)]
  simp only [fid, hs]
  have h4 : (2 : ℕ) ^ 2 = 4 := by norm_num
  rw [h4, Finset.sum_range_succ, Finset.sum_range_succ, Finset.sum_range_succ,
    Finset.sum_range_one, i0, i3, key1, key2]
  ring

/-! ## Claim C9: boundary behaviour of the entry points -/

/-- C9: every construction entry point rejects n < 1 with a precondition
error; at n = 1 every circuit builder returns exactly one x gate on qubit 0
(no entangling gates), whose state has fidelity 1 with the ideal reference. -/
theorem c9_boundary :
    (∀ n : ℤ, n < 1 →
        isErr (idealWE n) = true ∧ isErr (linE n) = true ∧ isErr (balE n) = true ∧
          isErr (improvedE n) = true ∧ isErr (wStateE n) = true) ∧
      (linE 1 = Except.ok [Gate.x 0] ∧ balE 1 = Except.ok [Gate.x 0] ∧
        improvedE 1 = Except.ok [Gate.x 0] ∧ wStateE 1 = Except.ok [Gate.x 0]) ∧
      fid 1 (idealW 1) (stateOf [Gate.x 0]) = 1 := by
  refine ⟨?_, ⟨?_, ?_, ?_, ?_⟩, ?_⟩
  · intro n hn
    simp [idealWE, linE, balE, improvedE, wStateE, isErr, hn]
  · norm_num [linE, linGates]
  · norm_num [balE, balGates, linGates]
  · norm_num [improvedE, improvedGates, linGates]
  · norm_num [wStateE, linGates]
  · have v0 : stateOf [Gate.x 0] 0 = 0 := by
      show e0 (flipB 0 0) = 0
      have h0 : flipB 0 0 = 1 := by decide
      rw [h0]
      simp [e0]
    have v1 : stateOf [Gate.x 0] 1 = 1 := by
      show e0 (flipB 0 1) = 1
      have h1 : flipB 0 1 = 0 := by decide
      rw [h1]
      simp [e0]
    have i1 : idealW 1 1 = 1 := by
      simp only [idealW]
      rw [if_pos ⟨0, by simp⟩]
      norm_num
    simp only [fid]
    have h2 : (2 : ℕ) ^ 1 = 2 := by norm_num
    rw [h2, Finset.sum_range_succ, Finset.sum_range_one, v0, v1, i1]
    ring

/-- Witness for c9_boundary at n = 0. -/
theorem c9_boundary_witness :
    isErr (idealWE 0) = true ∧ isErr (linE 0) = true ∧ isErr (balE 0) = true ∧
      isErr (improvedE 0) = true ∧ isErr (wStateE 0) = true :=
  c9_boundary.1 0 (by norm_num)

/-! ## Structure of the grouped while-loop -/

/-- Closed form of the inner for-loop: starting from accumulator acc it pairs
the i-th source with target L + acc.length + i while targets stay below n,
emitting one rotation+entangle pair per appended target. -/
theorem inner_eq (n L : ℕ) (sources : List ℕ) : ∀ acc : List ℕ,
    inner n L sources acc =
      (((sources.take (min sources.length (n - (L + acc.length)))).zip
          (List.range' (L + acc.length) (min sources.length (n - (L + acc.length))))).flatMap
          (pairGates n),
        acc ++ List.range' (L + acc.length) (min sources.length (n - (L + acc.length)))) := by
  induction sources with
  | nil =>
    intro acc
    simp [inner]
  | cons s rest ih =>
    intro acc
    by_cases h : L + acc.length < n
    · have h0 : 0 < n - (L + acc.length) := by omega
      simp only [inner, if_pos h, if_pos h0]
      rw [ih (acc ++ [L + acc.length])]
      simp only [List.length_append, List.length_cons, List.length_nil, Nat.zero_add]
      have e1 : L + (acc.length + 1) = L + acc.length + 1 := by omega
      have hk : min (rest.length + 1) (n - (L + acc.length)) =
          min rest.length (n - (L + acc.length + 1)) + 1 := by omega
      rw [e1, hk, List.take_succ_cons, List.range'_succ,
        List.zip_cons_cons, List.flatMap_cons]
      simp
    · have hk : min (rest.length + 1) (n - (L + acc.length)) =
          min rest.length (n - (L + acc.length)) := by omega
      have hz : min rest.length (n - (L + acc.length)) = 0 := by omega
      simp only [inner, if_neg h]
      rw [ih acc]
      rw [List.length_cons, hk, hz]
      simp

/-- Zipping a list with its own image pairs each element with its image. -/
theorem zip_self_map (f : ℕ → ℕ) (l : List ℕ) :
    l.zip (l.map f) = l.map fun a => (a, f a) := by
  induction l with
  | nil => rfl
  | cons a t ih => simp [ih]

/-- The inner loop on the full active range 0 .. m-1 with empty accumulator:
it emits exactly the round's gates and returns the new targets. -/
theorem inner_range (n m : ℕ) :
    inner n m (List.range m) [] = (roundGates n m, List.range' m (min m (n - m))) := by
  rw [inner_eq]
  simp only [List.length_range, List.length_nil, Nat.add_zero, List.nil_append]
  have hle : min m (n - m) ≤ m := Nat.min_le_left _ _
  congr 1
  rw [List.take_range, Nat.min_eq_left hle, List.range'_eq_map_range, zip_self_map,
    List.flatMap_map]
  rfl

/-- The while-loop does nothing once the active list is full. -/
theorem outerF_done (n f : ℕ) (active : List ℕ) (h : n ≤ active.length) :
    outerF n f active = ([], active, 0) := by
  cases f with
  | zero => rfl
  | succ f => simp [outerF, Nat.not_lt.mpr h]

/-- One unfolding of the while-loop on an active range 0 .. m-1 with
1 ≤ m < n: it emits the round's gates and continues on 0 .. min (2m, n) - 1. -/
theorem outerF_step (n f m : ℕ) (h1 : 1 ≤ m) (h2 : m < n) :
    outerF n (f + 1) (List.range m) =
      (roundGates n m ++ (outerF n f (List.range (min (2 * m) n))).1,
        (outerF n f (List.range (min (2 * m) n))).2.1,
        (outerF n f (List.range (min (2 * m) n))).2.2 + 1) := by
  have hk : 1 ≤ min m (n - m) := by omega
  have hne : (List.range' m (min m (n - m))).isEmpty = false := by
    cases hr : List.range' m (min m (n - m)) with
    | nil =>
      rw [List.range'_eq_nil] at hr
      omega
    | cons a t => rfl
  have hjoin : List.range m ++ List.range' m (min m (n - m)) = List.range (min (2 * m) n) := by
    have h0 : List.range' m (min m (n - m)) = List.range' (0 + m) (min m (n - m)) := by
      rw [Nat.zero_add]
    rw [List.range_eq_range' m, h0, List.range'_append_1, List.range_eq_range']
    congr 1
    omega
  simp only [outerF, List.length_range, if_pos h2, inner_range, hne, Bool.false_eq_true,
    if_false, hjoin]

/-- Fuel-bound bookkeeping for the doubling recursion. -/
theorem minStepBound (n m f : ℕ) (h2 : m < n) (h3 : n ≤ m * 2 ^ (f + 1)) :
    n ≤ min (2 * m) n * 2 ^ f := by
  rcases Nat.le_total (2 * m) n with hc | hc
  · rw [Nat.min_eq_left hc]
    have he : m * 2 ^ (f + 1) = 2 * m * 2 ^ f := by ring
    omega
  · rw [Nat.min_eq_right hc]
    have hp : 0 < 2 ^ f := Nat.two_pow_pos f
    calc n = n * 1 := (Nat.mul_one n).symm
    _ ≤ n * 2 ^ f := Nat.mul_le_mul_left n hp

/-- Once its fuel is at least the number of doublings needed, the loop's
result no longer depends on the fuel (i.e. the while-loop terminates). -/
theorem outerF_stable (n : ℕ) : ∀ f m fb, 1 ≤ m → m ≤ n → n ≤ m * 2 ^ f → f ≤ fb →
    outerF n fb (List.range m) = outerF n f (List.range m) := by
  intro f
  induction f with
  | zero =>
    intro m fb h1 h2 h3 _
    simp only [Nat.pow_zero, Nat.mul_one] at h3
    have hm : m = n := by omega
    subst hm
    rw [outerF_done m fb _ (by simp), outerF_done m 0 _ (by simp)]
  | succ f ih =>
    intro m fb h1 h2 h3 hf
    rcases Nat.lt_or_ge m n with hlt | hge
    · obtain ⟨fb2, rfl⟩ : ∃ fb2, fb = fb2 + 1 := ⟨fb - 1, by omega⟩
      rw [outerF_step n fb2 m h1 hlt, outerF_step n f m h1 hlt,
        ih (min (2 * m) n) fb2 (by omega) (by omega) (minStepBound n m f hlt h3) (by omega)]
    · have hm : m = n := by omega
      subst hm
      rw [outerF_done m fb _ (by simp), outerF_done m (f + 1) _ (by simp)]

/-- The loop cannot iterate more often than its fuel allows. -/
theorem outerF_rounds_le (n : ℕ) : ∀ f active, (outerF n f active).2.2 ≤ f := by
  intro f
  induction f with
  | zero =>
    intro active
    simp [outerF]
  | succ f ih =>
    intro active
    simp only [outerF]
    split
    · split
      · simp
      · simpa using Nat.add_le_add_right (ih _) 1
    · simp

/-- With sufficient fuel the loop activates every qubit: the final active list
is exactly 0 .. n-1. -/
theorem outerF_active (n : ℕ) : ∀ f m, 1 ≤ m → m ≤ n → n ≤ m * 2 ^ f →
    (outerF n f (List.range m)).2.1 = List.range n := by
  intro f
  induction f with
  | zero =>
    intro m h1 h2 h3
    simp only [Nat.pow_zero, Nat.mul_one] at h3
    have hm : m = n := by omega
    subst hm
    rfl
  | succ f ih =>
    intro m h1 h2 h3
    rcases Nat.lt_or_ge m n with hlt | hge
    · rw [outerF_step n f m h1 hlt]
      exact ih (min (2 * m) n) (by omega) (by omega) (minStepBound n m f hlt h3)
    · have hm : m = n := by omega
      subst hm
      rw [outerF_done m (f + 1) _ (by simp)]

/-- Every gate the loop emits is a rotation or an entangling gate on qubit
indices below n. -/
theorem outerF_mem (n : ℕ) : ∀ f m, 1 ≤ m → m ≤ n → ∀ g ∈ (outerF n f (List.range m)).1,
    (∃ p s, s < n ∧ g = Gate.ry p s) ∨ ∃ s t, s < n ∧ t < n ∧ g = Gate.cx s t := by
  intro f
  induction f with
  | zero =>
    intro m h1 h2 g hg
    simp [outerF] at hg
  | succ f ih =>
    intro m h1 h2 g hg
    rcases Nat.lt_or_ge m n with hlt | hge
    · rw [outerF_step n f m h1 hlt] at hg
      rcases List.mem_append.mp hg with hg | hg
      · simp only [roundGates, List.mem_flatMap, List.mem_range] at hg
        obtain ⟨i, hi, hgi⟩ := hg
        simp only [pairGates, List.mem_cons, List.not_mem_nil, or_false] at hgi
        rcases hgi with hge2 | hge2
        · exact Or.inl ⟨_, i, by omega, hge2⟩
        · exact Or.inr ⟨i, m + i, by omega, by omega, hge2⟩
      · exact ih (min (2 * m) n) (by omega) (by omega) g hg
    · rw [outerF_done n (f + 1) _ (by simpa using hge)] at hg
      simp at hg

/-- cxList distributes over append. -/
theorem cxList_append (a b : List Gate) : cxList (a ++ b) = cxList a ++ cxList b := by
  simp [cxList]

/-- The entangling pairs of a round are exactly its (source, target) pairs. -/
theorem cxList_round (n m : ℕ) (l : List ℕ) :
    cxList (l.flatMap fun i => pairGates n (i, m + i)) = l.map fun i => (i, m + i) := by
  induction l with
  | nil => simp [cxList]
  | cons a t ih =>
    rw [List.flatMap_cons, cxList_append, ih]
    simp [cxList, pairGates]

/-- A round on the active set 0 .. 2^r - 1 produces the pairs
(c - 2 ^ log2 c, c) for its k consecutive children c starting at 2^r. -/
theorem round_map_eq (n r k : ℕ) (hk : k ≤ 2 ^ r) :
    ((List.range k).map fun i => ((i : ℕ), 2 ^ r + i)) =
      (List.range' (2 ^ r) k).map fun c => (c - 2 ^ Nat.log2 c, c) := by
  rw [List.range'_eq_map_range, List.map_map]
  apply List.map_congr_left
  intro i hi
  rw [List.mem_range] at hi
  have hp : (2 : ℕ) ^ (r + 1) = 2 * 2 ^ r := by
    rw [Nat.pow_succ]
    ring
  have hlog : Nat.log2 (2 ^ r + i) = r := by
    rw [Nat.log2_eq_log_two]
    apply Nat.log_eq_of_pow_le_of_lt_pow
    · omega
    · omega
  simp only [Function.comp_apply, hlog, Prod.mk.injEq]
  constructor
  · omega
  · trivial

/-- Closed form of the entangling pairs the whole loop emits, starting from
an active set that is a power of two: one pair (c - 2 ^ log2 c, c) for every
remaining child c, in increasing child order. -/
theorem outerF_cx (n : ℕ) : ∀ f r, 2 ^ r < n → n ≤ 2 ^ r * 2 ^ f →
    cxList ((outerF n f (List.range (2 ^ r))).1) =
      (List.range' (2 ^ r) (n - 2 ^ r)).map fun c => (c - 2 ^ Nat.log2 c, c) := by
  intro f
  induction f with
  | zero =>
    intro r h1 h2
    simp only [Nat.pow_zero, Nat.mul_one] at h2
    omega
  | succ f ih =>
    intro r h1 h2
    have h1p : 1 ≤ 2 ^ r := Nat.two_pow_pos r
    have hp : (2 : ℕ) ^ (r + 1) = 2 * 2 ^ r := by
      rw [Nat.pow_succ]
      ring
    rw [outerF_step n f (2 ^ r) h1p h1]
    show cxList (roundGates n (2 ^ r) ++ (outerF n f (List.range (min (2 * 2 ^ r) n))).1) = _
    rw [cxList_append,
      show roundGates n (2 ^ r) =
        (List.range (min (2 ^ r) (n - 2 ^ r))).flatMap (fun i => pairGates n (i, 2 ^ r + i))
        from rfl,
      cxList_round]
    rcases Nat.lt_or_ge (2 * 2 ^ r) n with hc | hc
    · have hmin : min (2 * 2 ^ r) n = 2 ^ (r + 1) := by omega
      have hih : n ≤ 2 ^ (r + 1) * 2 ^ f := by
        have he : 2 ^ r * 2 ^ (f + 1) = 2 ^ (r + 1) * 2 ^ f := by
          rw [hp]
          ring
        omega
      rw [hmin, ih (r + 1) (by omega) hih]
      have hkk : min (2 ^ r) (n - 2 ^ r) = 2 ^ r := by omega
      have hranges : List.range' (2 ^ r) (n - 2 ^ r) =
          List.range' (2 ^ r) (2 ^ r) ++ List.range' (2 ^ (r + 1)) (n - 2 ^ (r + 1)) := by
        rw [show (2 : ℕ) ^ (r + 1) = 2 ^ r + 2 ^ r from by omega, List.range'_append_1]
        congr 1
        omega
      rw [hkk, round_map_eq n r (2 ^ r) (le_refl _), hranges, List.map_append]
    · have hmin : min (2 * 2 ^ r) n = n := by omega
      rw [hmin, outerF_done n f (List.range n) (by simp)]
      have hkk : min (2 ^ r) (n - 2 ^ r) = n - 2 ^ r := by omega
      rw [hkk, round_map_eq n r (n - 2 ^ r) (by omega)]
      simp [cxList]

/-- Qubit bound for the gates of the linear builder. -/
theorem linGates_qubit_lt (n : ℕ) (hn : 1 ≤ n) (g : Gate) (hg : g ∈ linGates n)
    (q : ℕ) (hq : q ∈ g.qubits) : q < n := by
  unfold linGates at hg
  by_cases h1 : n = 1
  · subst h1
    rw [if_pos rfl] at hg
    simp only [List.mem_singleton] at hg
    subst hg
    simp only [Gate.qubits, List.mem_singleton] at hq
    omega
  · rw [if_neg h1] at hg
    rcases List.mem_cons.mp hg with hx | hx
    · subst hx
      simp only [Gate.qubits, List.mem_singleton] at hq
      omega
    · simp only [List.mem_flatMap, List.mem_range] at hx
      obtain ⟨k, hk, hgk⟩ := hx
      simp only [List.mem_cons, List.not_mem_nil, or_false] at hgk
      rcases hgk with hge2 | hge2
      · subst hge2
        simp only [Gate.qubits, List.mem_singleton] at hq
        omega
      · subst hge2
        simp only [Gate.qubits, List.mem_cons, List.not_mem_nil, or_false] at hq
        rcases hq with hq | hq <;> omega

/-! ## Claim C10: termination of the grouped while-loop -/

/-- C10: for every n ≥ 1 the while-loop of create_improved_balanced_w_state
terminates: with the fuel n the function uses, the active list reaches exactly
0 .. n-1, the loop runs at most ceil(log2 n) iterations, and giving the loop
any more fuel changes nothing (each iteration strictly enlarges the active
set until it is full). -/
theorem c10_loop_terminates (n : ℕ) (hn : 1 ≤ n) :
    (outerF n n [0]).2.1 = List.range n ∧
      (outerF n n [0]).2.2 ≤ Nat.clog 2 n ∧
      ∀ f, n ≤ f → outerF n f [0] = outerF n n [0] := by
  have hr1 : ([0] : List ℕ) = List.range 1 := rfl
  have hpow : n ≤ 1 * 2 ^ n := by
    have := Nat.lt_two_pow n
    omega
  have hclog : n ≤ 1 * 2 ^ Nat.clog 2 n := by
    have := Nat.le_pow_clog (by norm_num : 1 < 2) n
    omega
  have hcn : Nat.clog 2 n ≤ n := by
    rw [← Nat.le_pow_iff_clog_le (by norm_num : 1 < 2)]
    have := Nat.lt_two_pow n
    omega
  refine ⟨?_, ?_, ?_⟩
  · rw [hr1]
    exact outerF_active n n 1 (le_refl 1) hn hpow
  · rw [hr1, outerF_stable n (Nat.clog 2 n) 1 n (le_refl 1) hn hclog hcn]
    exact outerF_rounds_le n (Nat.clog 2 n) _
  · intro f hf
    rw [hr1, outerF_stable n (Nat.clog 2 n) 1 f (le_refl 1) hn hclog (by omega),
      outerF_stable n (Nat.clog 2 n) 1 n (le_refl 1) hn hclog hcn]

/-- Witness for c10_loop_terminates at n = 8. -/
theorem c10_loop_terminates_witness : (outerF 8 8 [0]).2.1 = List.range 8 :=
  (c10_loop_terminates 8 (by norm_num)).1

/-! ## Claim C8: logarithmic layer count -/

/-- C8: the number of parallel transfer layers (while-loop iterations) the
planner emits is logarithmic: at most 4 for n = 16 and at most 5 for n = 32. -/
theorem c8_layer_bounds : emittedLayers 16 ≤ 4 ∧ emittedLayers 32 ≤ 5 := by
  constructor
  · have hst : outerF 16 16 (List.range 1) = outerF 16 4 (List.range 1) :=
      outerF_stable 16 4 1 16 (le_refl 1) (by norm_num) (by norm_num) (by norm_num)
    have hle := outerF_rounds_le 16 4 (List.range 1)
    simp only [emittedLayers]
    rw [show ([0] : List ℕ) = List.range 1 from rfl, hst]
    exact hle
  · have hst : outerF 32 32 (List.range 1) = outerF 32 5 (List.range 1) :=
      outerF_stable 32 5 1 32 (le_refl 1) (by norm_num) (by norm_num) (by norm_num)
    have hle := outerF_rounds_le 32 5 (List.range 1)
    simp only [emittedLayers]
    rw [show ([0] : List ℕ) = List.range 1 from rfl, hst]
    exact hle

/-! ## Claim C7: no out-of-range qubit references -/

/-- Qubit bound for the gates of the improved balanced builder. -/
theorem improved_qubit_lt (n : ℕ) (g : Gate) (q : ℕ) (hn : 1 ≤ n)
    (hg : g ∈ improvedGates n) (hq : q ∈ g.qubits) : q < n := by
  by_cases h4 : n ≤ 4
  · rw [improvedGates, if_pos h4] at hg
    exact linGates_qubit_lt n hn g hg q hq
  · rw [improvedGates, if_neg h4] at hg
    rcases List.mem_cons.mp hg with hx | hx
    · subst hx
      simp only [Gate.qubits, List.mem_singleton] at hq
      omega
    · rw [show ([0] : List ℕ) = List.range 1 from rfl] at hx
      rcases outerF_mem n n 1 (le_refl 1) (by omega) g hx with
        ⟨p, s, hs, hgeq⟩ | ⟨s, t, hs, ht, hgeq⟩
      · subst hgeq
        simp only [Gate.qubits, List.mem_singleton] at hq
        omega
      · subst hgeq
        simp only [Gate.qubits, List.mem_cons, List.not_mem_nil, or_false] at hq
        rcases hq with hq | hq <;> omega

/-- C7: for every n ≥ 1, every gate of the connectivity-agnostic builder acts
only on qubit indices in 0 .. n-1 (the regression property guarding the
historical crash at n = 18). -/
theorem c7_qubit_bounds (n : ℕ) (g : Gate) (q : ℕ) (hn : 1 ≤ n)
    (hg : g ∈ improvedGates n) (hq : q ∈ g.qubits) : q < n :=
  improved_qubit_lt n g q hn hg hq

/-- Witness for c7_qubit_bounds at the historical crash size n = 18. -/
theorem c7_qubit_bounds_witness : (17 : ℕ) < 18 :=
  c7_qubit_bounds 18 (Gate.cx 1 17) 17 (by norm_num) (by decide) (by decide)

/-! ## Claim C5: layout of the tree planner -/

/-- C5 (counterexample): for n = 5 the planner emits the entangling pair
(0, 4), while the claimed binary-heap layout parent(child) =
floor((child - 1) / 2) demands parent 1 for child 4.  (The output also
contains no barrier at all, against the claimed barrier-separated layers.) -/
theorem c5_counterexample :
    Gate.cx 0 4 ∈ improvedGates 5 ∧ ((4 - 1) / 2 : ℕ) ≠ 0 := by
  constructor
  · decide
  · decide

/-- C5 (amended): for n ≥ 5 the planner emits exactly one entangling pair
(c - 2 ^ floor(log2 c), c) for each child c = 1 .. n-1, in increasing child
order — i.e. doubling rounds from the shallowest layer to the deepest, with
parent(c) = c - 2 ^ floor(log2 c) — and no barrier operations at all. -/
theorem c5_amended (n : ℕ) (hn : 5 ≤ n) :
    cxList (improvedGates n) =
        ((List.range' 1 (n - 1)).map fun c => (c - 2 ^ Nat.log2 c, c)) ∧
      ∀ g ∈ improvedGates n, g ≠ Gate.barrier := by
  have him : improvedGates n = Gate.x 0 :: (outerF n n (List.range 1)).1 := by
    rw [improvedGates, if_neg (by omega)]
    rfl
  constructor
  · rw [him, show cxList (Gate.x 0 :: (outerF n n (List.range 1)).1) =
        cxList ((outerF n n (List.range 1)).1) from by simp [cxList]]
    have hcx := outerF_cx n n 0 (by simpa using by omega : 2 ^ 0 < n)
      (by
        simp only [Nat.pow_zero, Nat.one_mul]
        have := Nat.lt_two_pow n
        omega)
    simpa using hcx
  · rw [him]
    intro g hg
    rcases List.mem_cons.mp hg with hx | hx
    · subst hx
      simp
    · rcases outerF_mem n n 1 (le_refl 1) (by omega) g hx with
        ⟨p, s, _, hgeq⟩ | ⟨s, t, _, _, hgeq⟩ <;> subst hgeq <;> simp

/-- Witness for c5_amended at n = 6. -/
theorem c5_amended_witness :
    cxList (improvedGates 6) = (List.range' 1 (6 - 1)).map fun c => (c - 2 ^ Nat.log2 c, c) :=
  (c5_amended 6 (by norm_num)).1

/-! ## The transpiler pass: substitution behaviour -/

/-- The planning entry point never raises for n ≥ 1. -/
theorem improvedE_ok (n : ℕ) (hn : 1 ≤ n) :
    improvedE (n : ℤ) = Except.ok (improvedGates n) := by
  rw [improvedE, if_neg (by omega : ¬ ((n : ℤ) < 1))]
  congr 1

/-- The replacement circuit always holds at least two gates for n ≥ 4. -/
theorem improved_len2 (n : ℕ) (hn : 4 ≤ n) : 2 ≤ (improvedGates n).length := by
  by_cases h4 : n ≤ 4
  · have h : n = 4 := by omega
    subst h
    decide
  · rw [improvedGates, if_neg h4]
    obtain ⟨f, rfl⟩ : ∃ f, n = f + 1 := ⟨n - 1, by omega⟩
    rw [show ([0] : List ℕ) = List.range 1 from rfl,
      outerF_step (f + 1) f 1 (le_refl 1) (by omega)]
    simp only [List.length_cons, List.length_append]
    have hr : 1 ≤ (roundGates (f + 1) 1).length := by
      rw [roundGates, show min 1 (f + 1 - 1) = 1 from by omega,
        show List.range 1 = [0] from rfl]
      simp [pairGates]
    omega

/-- Recover an entangling gate from its recorded pair. -/
theorem cx_mem_of_pair (gs : List Gate) (s t : ℕ) (h : (s, t) ∈ cxList gs) :
    Gate.cx s t ∈ gs := by
  rw [cxList, List.mem_filterMap] at h
  obtain ⟨g, hg, hmatch⟩ := h
  cases g with
  | x q => simp at hmatch
  | had q => simp at hmatch
  | ry p q => simp at hmatch
  | barrier => simp at hmatch
  | cx a b =>
    simp only [Option.some.injEq, Prod.mk.injEq] at hmatch
    obtain ⟨rfl, rfl⟩ := hmatch
    exact hg

/-- The linear builder touches every qubit 0 .. n-1. -/
theorem linGates_touch (n q : ℕ) (hn : 1 ≤ n) (hq : q < n) :
    q ∈ (linGates n).flatMap Gate.qubits := by
  unfold linGates
  by_cases h1 : n = 1
  · subst h1
    rw [if_pos rfl]
    have : q = 0 := by omega
    subst this
    simp [Gate.qubits]
  · rw [if_neg h1]
    rcases Nat.eq_zero_or_pos q with rfl | hq0
    · apply List.mem_flatMap.mpr
      exact ⟨Gate.x 0, List.mem_cons_self _ _, by simp [Gate.qubits]⟩
    · apply List.mem_flatMap.mpr
      refine ⟨Gate.cx (q - 1) q, ?_, by simp [Gate.qubits]⟩
      apply List.mem_cons_of_mem
      apply List.mem_flatMap.mpr
      refine ⟨q - 1, by rw [List.mem_range]; omega, ?_⟩
      rw [show q - 1 + 1 = q from by omega]
      simp

/-- The improved builder touches every qubit 0 .. n-1. -/
theorem improved_touch (n q : ℕ) (hn : 1 ≤ n) (hq : q < n) :
    q ∈ (improvedGates n).flatMap Gate.qubits := by
  by_cases h4 : n ≤ 4
  · rw [improvedGates, if_pos h4]
    exact linGates_touch n q hn hq
  · rw [improvedGates, if_neg h4]
    rcases Nat.eq_zero_or_pos q with rfl | hq0
    · apply List.mem_flatMap.mpr
      exact ⟨Gate.x 0, List.mem_cons_self _ _, by simp [Gate.qubits]⟩
    · have hcx := outerF_cx n n 0 (by simpa using by omega : 2 ^ 0 < n)
        (by
          simp only [Nat.pow_zero, Nat.one_mul]
          have := Nat.lt_two_pow n
          omega)
      simp only [Nat.pow_zero] at hcx
      have hpair : (q - 2 ^ Nat.log2 q, q) ∈ cxList ((outerF n n (List.range 1)).1) := by
        rw [hcx]
        exact List.mem_map_of_mem _ (by rw [List.mem_range'_1]; omega)
      have hgate := cx_mem_of_pair _ _ _ hpair
      apply List.mem_flatMap.mpr
      refine ⟨Gate.cx (q - 2 ^ Nat.log2 q) q, ?_, by simp [Gate.qubits]⟩
      exact List.mem_cons_of_mem _ hgate

/-- Qubit slots touched by the spliced replacement are exactly the marker
node's slots: internal qubit i is bound to the i-th slot, the internal
indices cover 0 .. n-1, and every slot list of length n is covered. -/
theorem replaced_touched (n : ℕ) (hn : 4 ≤ n) (qargs : List ℕ) (hlen : qargs.length = n)
    (q : ℕ) :
    q ∈ touchedList ((improvedGates n).map (toNode qargs)) ↔ q ∈ qargs := by
  rw [touchedList, List.flatMap_map]
  constructor
  · intro hq
    obtain ⟨g, hg, hqg⟩ := List.mem_flatMap.mp hq
    have hb : ∀ i ∈ g.qubits, i < qargs.length := fun i hi => by
      rw [hlen]
      exact improved_qubit_lt n g i (by omega) hg hi
    cases g with
    | x j =>
      simp only [toNode, List.mem_singleton] at hqg
      subst hqg
      rw [List.getD_eq_getElem qargs 0 (hb j (by simp [Gate.qubits]))]
      exact List.getElem_mem _
    | had j =>
      simp only [toNode, List.mem_singleton] at hqg
      subst hqg
      rw [List.getD_eq_getElem qargs 0 (hb j (by simp [Gate.qubits]))]
      exact List.getElem_mem _
    | ry p j =>
      simp only [toNode, List.mem_singleton] at hqg
      subst hqg
      rw [List.getD_eq_getElem qargs 0 (hb j (by simp [Gate.qubits]))]
      exact List.getElem_mem _
    | cx c t =>
      simp only [toNode, List.mem_cons, List.not_mem_nil, or_false] at hqg
      rcases hqg with rfl | rfl
      · rw [List.getD_eq_getElem qargs 0 (hb c (by simp [Gate.qubits]))]
        exact List.getElem_mem _
      · rw [List.getD_eq_getElem qargs 0 (hb t (by simp [Gate.qubits]))]
        exact List.getElem_mem _
    | barrier =>
      simpa [toNode] using hqg
  · intro hq
    obtain ⟨i, hi, rfl⟩ := List.mem_iff_getElem.mp hq
    obtain ⟨g, hg, hig⟩ := List.mem_flatMap.mp (improved_touch n i (by omega) (by omega))
    apply List.mem_flatMap.mpr
    refine ⟨g, hg, ?_⟩
    cases g with
    | x j =>
      simp only [Gate.qubits, List.mem_singleton] at hig
      subst hig
      simp only [toNode, List.mem_singleton]
      rw [List.getD_eq_getElem qargs 0 (by omega)]
    | had j =>
      simp only [Gate.qubits, List.mem_singleton] at hig
      subst hig
      simp only [toNode, List.mem_singleton]
      rw [List.getD_eq_getElem qargs 0 (by omega)]
    | ry p j =>
      simp only [Gate.qubits, List.mem_singleton] at hig
      subst hig
      simp only [toNode, List.mem_singleton]
      rw [List.getD_eq_getElem qargs 0 (by omega)]
    | cx c t =>
      simp only [Gate.qubits, List.mem_cons, List.not_mem_nil, or_false] at hig
      simp only [toNode, List.mem_cons, List.not_mem_nil, or_false]
      rcases hig with rfl | rfl
      · left
        rw [List.getD_eq_getElem qargs 0 (by omega)]
      · right
        rw [List.getD_eq_getElem qargs 0 (by omega)]
    | barrier =>
      simp [Gate.qubits] at hig

/-- Case analysis of the per-node body: a node is either left untouched or it
is a w_state marker of size at least 4 replaced by the mapped balanced
circuit. -/
theorem processNode_eq (cmap : Option (List (ℕ × ℕ))) (verify : Bool) (nd : Node) :
    processNode cmap verify nd = [nd] ∨
      (nd.name = "w_state" ∧ 4 ≤ nd.qargs.length ∧
        processNode cmap verify nd = (improvedGates nd.qargs.length).map (toNode nd.qargs)) := by
  by_cases hname : nd.name = "w_state"
  · by_cases hlen : nd.qargs.length < minSize
    · left
      simp [processNode, hname, hlen]
    · have hlen4 : 4 ≤ nd.qargs.length := by
        simp only [minSize] at hlen
        omega
      have hok := improvedE_ok nd.qargs.length (by omega)
      cases verify with
      | false =>
        right
        exact ⟨hname, hlen4, by simp [processNode, hname, hlen, hok]⟩
      | true =>
        by_cases hf : fidelityOf nd.qargs.length < 99 / 100
        · left
          simp [processNode, hname, hlen, hok, hf]
        · right
          exact ⟨hname, hlen4, by simp [processNode, hname, hlen, hok, hf]⟩
  · left
    simp [processNode, hname]

/-! ## Claim C3: substitution condition of the pass -/

/-- C3: the pass substitutes a node exactly when it is a w_state marker, its
size reaches the minimum threshold, planning does not raise, and — when
verification is enabled — the candidate's fidelity is not below 0.99; in
every other case the node is left untouched and the (total) pass moves on. -/
theorem c3_substitution_iff (cmap : Option (List (ℕ × ℕ))) (verify : Bool) (nd : Node) :
    processNode cmap verify nd ≠ [nd] ↔
      (nd.name = "w_state" ∧ minSize ≤ nd.qargs.length ∧
        isErr (improvedE (nd.qargs.length : ℤ)) = false ∧
        (verify = true → ¬ fidelityOf nd.qargs.length < 99 / 100)) := by
  by_cases hname : nd.name = "w_state"
  · by_cases hlen : nd.qargs.length < minSize
    · rw [show processNode cmap verify nd = [nd] from by simp [processNode, hname, hlen]]
      constructor
      · intro h
        exact absurd rfl h
      · rintro ⟨_, h2, _, _⟩
        omega
    · have hlen4 : 4 ≤ nd.qargs.length := by
        simp only [minSize] at hlen
        omega
      have hok := improvedE_ok nd.qargs.length (by omega)
      have hmapne : (improvedGates nd.qargs.length).map (toNode nd.qargs) ≠ [nd] := by
        intro heq
        have hlength := congrArg List.length heq
        simp only [List.length_map, List.length_cons, List.length_nil] at hlength
        have := improved_len2 nd.qargs.length hlen4
        omega
      cases verify with
      | false =>
        rw [show processNode cmap false nd =
            (improvedGates nd.qargs.length).map (toNode nd.qargs) from by
          simp [processNode, hname, hlen, hok]]
        constructor
        · intro _
          refine ⟨hname, by simp only [minSize]; omega, by rw [hok]; rfl, ?_⟩
          intro h
          exact absurd h Bool.false_ne_true
        · intro _
          exact hmapne
      | true =>
        by_cases hf : fidelityOf nd.qargs.length < 99 / 100
        · rw [show processNode cmap true nd = [nd] from by
            simp [processNode, hname, hlen, hok, hf]]
          constructor
          · intro h
            exact absurd rfl h
          · rintro ⟨_, _, _, h4⟩
            exact absurd hf (h4 rfl)
        · rw [show processNode cmap true nd =
              (improvedGates nd.qargs.length).map (toNode nd.qargs) from by
            simp [processNode, hname, hlen, hok, hf]]
          constructor
          · intro _
            exact ⟨hname, by simp only [minSize]; omega, by rw [hok]; rfl, fun _ => hf⟩
          · intro _
            exact hmapne
  · rw [show processNode cmap verify nd = [nd] from by simp [processNode, hname]]
    constructor
    · intro h
      exact absurd rfl h
    · rintro ⟨h1, _⟩
      exact absurd h1 hname

/-! ## Claim C4: frame property of substitution -/

/-- C4: every node is either left completely untouched by the pass, or it is
a substituted w_state marker whose replacement is the balanced circuit with
internal qubit i bound to the marker's i-th slot, and whose set of touched
qubit slots is exactly the marker's slot set. -/
theorem c4_frame (cmap : Option (List (ℕ × ℕ))) (verify : Bool) (nd : Node) :
    processNode cmap verify nd = [nd] ∨
      (nd.name = "w_state" ∧
        processNode cmap verify nd = (improvedGates nd.qargs.length).map (toNode nd.qargs) ∧
        ∀ q, q ∈ touchedList (processNode cmap verify nd) ↔ q ∈ nd.qargs) := by
  rcases processNode_eq cmap verify nd with h | ⟨hname, hlen4, heq⟩
  · exact Or.inl h
  · refine Or.inr ⟨hname, heq, fun q => ?_⟩
    rw [heq]
    exact replaced_touched nd.qargs.length hlen4 nd.qargs rfl q

/-! ## Claim C6: the coupling map is never consulted -/

/-- C6 (counterexample): on the 5-qubit path coupling graph the breadth-first
search described by the spec reaches all requested qubits, yet the pass
splices in an entangling operation on the physically non-adjacent pair
(0, 2) — the emitted circuit is not connectivity-aware. -/
theorem c6_counterexample :
    reachAll [(0, 1), (1, 2), (2, 3), (3, 4)] [0, 1, 2, 3, 4] = true ∧
      (⟨"cx", [0, 2], none⟩ : Node) ∈
        runPass (some [(0, 1), (1, 2), (2, 3), (3, 4)]) false
          [⟨"w_state", [0, 1, 2, 3, 4], none⟩] ∧
      (0, 2) ∉ [(0, 1), (1, 2), (2, 3), (3, 4)] ∧
      (2, 0) ∉ [(0, 1), (1, 2), (2, 3), (3, 4)] := by
  refine ⟨by decide, by decide, by decide, by decide⟩

/-- C6 (amended): the synthesizer stores the coupling map but never consults
it — its output is identical for every supplied coupling map, so entangling
operations are not constrained to physically adjacent pairs and no
breadth-first fallback ever takes place. -/
theorem c6_amended (cmapA cmapB : Option (List (ℕ × ℕ))) (verify : Bool)
    (dag : List Node) :
    runPass cmapA verify dag = runPass cmapB verify dag := rfl

end WSynth
